import Mathlib

/-
Verification development for the geometric core of the pyembroidery repository
(file `generateDST_utils.py`): the segment-intersection routine
`get_segments_intersection` and the stitch planner `stitch_path`.

Modelling conventions:
* 2D points are pairs of rationals (exact arithmetic standing in for float64).
* numpy nan semantics: in the collinear branch the code divides by
  `dot r r` and `dot s s`, which are zero exactly for a degenerate segment.
  In numpy a zero denominator yields nan (the numerator is then zero as well)
  or an infinity, and every ordered comparison against nan fails, while an
  infinity fails one of the two range bounds; in all cases the candidate is
  not kept.  We model this with an explicit `den ≠ 0` conjunct in the guard.
* `np.floor(distance/pitch)` with `distance = sqrt dd` is computed exactly
  over the rationals via an integer square root; for `pitch = 0` numpy yields
  inf (or nan), whose int64 cast is -2^63 on mainstream platforms, which we
  use as the sentinel.  The subsequent `- 1` is int64 arithmetic: the
  sentinel wraps to 2^63 - 1, `np.arange` then comes out empty and the
  stitch loop raises IndexError, so the whole `stitch_path` call aborts
  with no output; the stitch planner is therefore embedded as an
  Option-valued function, `none` standing for the raised IndexError.
* The mutable `pattern` argument (a pyembroidery EmbPattern receiving
  `add_stitch_absolute` calls) is modelled by explicit state passing: the
  embedded `stitch_path` takes the current stitch list of the pattern and
  returns the updated list alongside the x/y stitch lists (the appending
  loop runs after all stitches are computed, so an IndexError leaves the
  pattern untouched and nothing is returned).
* `np.lexsort((yd*ys, xd*xs))` is a stable ascending sort by the key
  `(xd*x, yd*y)` compared lexicographically; we embed it as a stable
  insertion sort by the same key.
-/

namespace PyEmb

/-- A 2D point with rational coordinates. -/
abbrev Pt := ℚ × ℚ

/-- Scalar 2D cross product, as computed by `np.cross` on 2-vectors. -/
def cross (u v : Pt) : ℚ := u.1 * v.2 - u.2 * v.1

/-- Dot product of 2-vectors, as computed by `np.dot`. -/
def dot (u v : Pt) : ℚ := u.1 * v.1 + u.2 * v.2

/-- Scenario information dict of `get_segments_intersection`. -/
structure ScenarioInfo where
  colinear : Bool
  parallel : Bool
deriving DecidableEq, Repr

/-- One conditional candidate of the collinear branch: the code computes
`ratio = num / den` and keeps `base + ratio * dir` when `0 <= ratio <= 1`.
When `den = 0` (degenerate segment) numpy produces nan or an infinity and the
range test fails, so the candidate is kept only when `den ≠ 0`. -/
def nanRatioCandidate (num den : ℚ) (base dir : Pt) : List Pt :=
  if den ≠ 0 ∧ 0 ≤ num / den ∧ num / den ≤ 1 then [base + (num / den) • dir] else []

/-- The four conditional endpoint projections of the collinear branch of
`get_segments_intersection` (lines 54-67 of `generateDST_utils.py`), in
program order. -/
def collinearCandidates (p r q s : Pt) : List Pt :=
  nanRatioCandidate (dot (q - p) r) (dot r r) p r
    ++ nanRatioCandidate (dot (q + s - p) r) (dot r r) p r
    ++ nanRatioCandidate (dot (p - q) s) (dot s s) q s
    ++ nanRatioCandidate (dot (p + r - q) s) (dot s s) q s

/-- Componentwise mean of a list of points, as `np.mean(:, axis=0)`. -/
def meanPts (l : List Pt) : Pt := ((l.length : ℚ))⁻¹ • l.sum

/-- Embedding of `get_segments_intersection` from `generateDST_utils.py`.
Returns the optional intersection point together with the scenario info dict
(the Python function returns the info only on request; we always return it). -/
def get_segments_intersection (e1 e2 : Pt × Pt) : Option Pt × ScenarioInfo :=
  let p := e1.1
  let r := e1.2 - e1.1
  let q := e2.1
  let s := e2.2 - e2.1
  if cross r s = 0 ∧ cross (q - p) r = 0 then
    let pts := collinearCandidates p r q s
    (if pts = [] then none else some (meanPts pts), ⟨true, false⟩)
  else if cross r s = 0 ∧ cross (q - p) r ≠ 0 then
    (none, ⟨false, true⟩)
  else
    let t := cross (q - p) s / cross r s
    let u := cross (q - p) r / cross r s
    if cross r s ≠ 0 ∧ (0 ≤ t ∧ t ≤ 1) ∧ (0 ≤ u ∧ u ≤ 1) then
      (some (p + t • r), ⟨false, false⟩)
    else
      (none, ⟨false, false⟩)

/-- Membership of a point on the closed segment from `a` to `b`, in the
parametric form used by the spec. -/
def onSeg (a b pt : Pt) : Prop := ∃ t : ℚ, 0 ≤ t ∧ t ≤ 1 ∧ pt = a + t • (b - a)

/-- The parameter `t = cross(q - p, s) / cross(r, s)` computed by the else
branch of `get_segments_intersection` (line 80). -/
def tParam (e1 e2 : Pt × Pt) : ℚ :=
  cross (e2.1 - e1.1) (e2.2 - e2.1) / cross (e1.2 - e1.1) (e2.2 - e2.1)

/-- The parameter `u = cross(q - p, r) / cross(r, s)` computed by the else
branch of `get_segments_intersection` (line 81). -/
def uParam (e1 e2 : Pt × Pt) : ℚ :=
  cross (e2.1 - e1.1) (e1.2 - e1.1) / cross (e1.2 - e1.1) (e2.2 - e2.1)

/-- Greatest `j ≤ k` with `j * j ≤ n` (structural recursion on `k`). -/
def isqrtAux (n : ℕ) : ℕ → ℕ
  | 0 => 0
  | k + 1 => if (k + 1) * (k + 1) ≤ n then k + 1 else isqrtAux n k

/-- Integer (floor) square root, executable by kernel reduction. -/
def isqrt (n : ℕ) : ℕ := isqrtAux n n

/-- Exact-arithmetic value of `np.floor(distance/pitch).astype(int)` where
`distance = sqrt dd`:  for `pitch > 0` it is the floor of `sqrt (dd/pitch^2)`;
for `pitch < 0` it is minus the ceiling of that square root; for `pitch = 0`
numpy produces inf (or nan for `dd = 0`) whose int64 cast is `-2^63` on
mainstream platforms. -/
def floorDistDiv (dd pitch : ℚ) : ℤ :=
  if 0 < pitch then
    (isqrt (⌊dd / pitch ^ 2⌋.toNat) : ℤ)
  else if pitch < 0 then
    (if ((isqrt (⌊dd / pitch ^ 2⌋.toNat) : ℚ)) ^ 2 * pitch ^ 2 = dd then
      -(isqrt (⌊dd / pitch ^ 2⌋.toNat) : ℤ)
    else
      -((isqrt (⌊dd / pitch ^ 2⌋.toNat) : ℤ) + 1))
  else
    -(2 ^ 63)

/-- Interior stitches for one gap of `stitch_path` (lines 462-478 of
`generateDST_utils.py`), or `none` for a raised IndexError.
`np.floor(distance/pitch).astype(int) - 1` subtracts in int64: the astype
sentinel `-2^63` (`pitch = 0`, see `floorDistDiv`) wraps to `2^63 - 1`.
When that wrapped int64 value wins `max` against the plain-int
`min_num_stitches_per_segment` (Python `max` keeps the first argument on
ties, so a tie keeps the plain int), the int64 `num_stitches + 1` wraps
negative, `np.arange(0, 1, 1/(num_stitches+1))` is empty, and the loop over
`range(num_stitches)` raises IndexError before emitting anything: `none`.
Otherwise the `num_stitches` ratio entries `(j+1)/(num_stitches+1)` exist,
which is what `np.arange(0, 1, 1/(num_stitches+1))[1:]` yields in exact
arithmetic, and `num_stitches` stitches are emitted. -/
def gapStitches (a b : Pt) (pitch : ℚ) (minNum : ℤ) : Option (List Pt) :=
  let fd : ℤ := floorDistDiv (dot (b - a) (b - a)) pitch
  let w : ℤ := if fd = -(2 ^ 63) then 2 ^ 63 - 1 else fd - 1
  let n : ℤ := max minNum w
  if fd = -(2 ^ 63) ∧ minNum < 2 ^ 63 - 1 then none
  else some ((List.range n.toNat).map
    (fun (j : ℕ) => a + (((j : ℚ) + 1) / ((n : ℚ) + 1)) • (b - a)))

/-- Strict lexicographic order on the `np.lexsort` key `(xd*x, yd*y)`. -/
def lexLt (xd yd : ℚ) (u v : Pt) : Bool :=
  decide (xd * u.1 < xd * v.1) ||
    (decide (xd * u.1 = xd * v.1) && decide (yd * u.2 < yd * v.2))

/-- Insert `x` before the first element not strictly below it (stable). -/
def insertByKey (lt : Pt → Pt → Bool) (x : Pt) : List Pt → List Pt
  | [] => [x]
  | y :: ys => if lt y x then y :: insertByKey lt x ys else x :: y :: ys

/-- Stable insertion sort by a strict key order. -/
def sortByKey (lt : Pt → Pt → Bool) : List Pt → List Pt
  | [] => []
  | x :: xs => insertByKey lt x (sortByKey lt xs)

/-- The waypoint ordering of `stitch_path` (lines 437-450): a stable
ascending sort by `(xd*x, yd*y)` where the directions come from the segment
endpoints, exactly as `np.lexsort((yd*ys, xd*xs))`.  Note the code uses `>`
so an axis with equal endpoint coordinates gets direction `-1`. -/
def sortSegPoints (a b : Pt) (l : List Pt) : List Pt :=
  sortByKey (lexLt (if b.1 > a.1 then 1 else -1) (if b.2 > a.2 then 1 else -1)) l

/-- Consecutive pairs of a list: the line segments of a polyline. -/
def segPairs : List Pt → List (Pt × Pt)
  | a :: b :: rest => (a, b) :: segPairs (b :: rest)
  | _ => []

/-- One iteration of the outer loop of `stitch_path` (lines 403-488) for the
segment from `a` to `b`: gather the intersections with every segment of every
other path (in program order), sort the waypoints, emit a stitch at the
control point `a`, then fill every gap between consecutive waypoints; a gap
fill that raises IndexError aborts the whole call (`none`). -/
def stitchSegPts (others : List (List Pt)) (pitch : ℚ) (minNum : ℤ) (a b : Pt) :
    Option (List Pt) :=
  let ints := (others.flatMap segPairs).filterMap (fun t => (get_segments_intersection (a, b) t).1)
  let wps := sortSegPoints a b (a :: (ints ++ [b]))
  ((segPairs wps).mapM (fun g => gapStitches g.1 g.2 pitch minNum)).map
    (fun gaps => a :: gaps.flatten)

/-- The outer loop of `stitch_path` over the consecutive control-point pairs;
after the final segment the closing control point is emitted (lines 491-493).
A path with fewer than 2 points produces no stitches (the loop body never
runs); a raised IndexError propagates out of the whole loop. -/
def stitchCore (others : List (List Pt)) (pitch : ℚ) (minNum : ℤ) :
    List Pt → Option (List Pt)
  | a :: b :: rest =>
    (stitchSegPts others pitch minNum a b).bind (fun seg =>
      (stitchCore others pitch minNum (b :: rest)).bind (fun tail =>
        some (seg ++ (if rest = [] then [b] else []) ++ tail)))
  | _ => some []

/-- The control points of path `i`, from the parallel coordinate lists. -/
def pathPoints (x_all y_all : List (List ℚ)) (i : ℕ) : List Pt :=
  List.zip (x_all.getD i []) (y_all.getD i [])

/-- The other paths iterated by the intersection search of `stitch_path`
(lines 413-415): every path index except `path_index`, in order. -/
def stitchOthers (x_all y_all : List (List ℚ)) (path_index : ℕ) : List (List Pt) :=
  ((List.range x_all.length).filter (fun i => i != path_index)).map (pathPoints x_all y_all)

/-- Embedding of `stitch_path` from `generateDST_utils.py`.  The mutable
pyembroidery pattern is threaded explicitly: on a normal return the first
component is the pattern stitch list after the `pattern.add_stitch_absolute`
loop of lines 496-499 appended every computed stitch, and the other two
components are the returned `x_stitch, y_stitch` lists.  `none` models a
raised IndexError: no value is returned and the pattern is untouched (the
appending loop runs only after all stitches are computed). -/
def stitch_path (pattern : List Pt) (x_all y_all : List (List ℚ)) (path_index : ℕ)
    (pitch : ℚ) (minNum : ℤ) : Option (List Pt × List ℚ × List ℚ) :=
  (stitchCore (stitchOthers x_all y_all path_index) pitch minNum
    (pathPoints x_all y_all path_index)).map
    (fun st => (pattern ++ st, st.map Prod.fst, st.map Prod.snd))

/-- Scenario 2 of the spec: parallel non-collinear segments yield no
intersection, classified as parallel. -/
lemma scenario2_parallel :
    get_segments_intersection (((0:ℚ),(0:ℚ)),((10:ℚ),(0:ℚ))) (((0:ℚ),(1:ℚ)),((10:ℚ),(1:ℚ)))
      = (none, ⟨false, true⟩) := by with_unfolding_all decide

lemma dot_self_nonneg (v : Pt) : 0 ≤ dot v v :=
  add_nonneg (mul_self_nonneg v.1) (mul_self_nonneg v.2)

lemma dot_self_eq_zero_iff (v : Pt) : dot v v = 0 ↔ v = 0 := by
  constructor
  · intro h
    simp only [dot] at h
    have h1 : v.1 * v.1 = 0 ∧ v.2 * v.2 = 0 := by
      constructor <;> nlinarith [mul_self_nonneg v.1, mul_self_nonneg v.2]
    have hx := mul_self_eq_zero.mp h1.1
    have hy := mul_self_eq_zero.mp h1.2
    exact Prod.ext_iff.mpr ⟨hx, hy⟩
  · intro h
    subst h
    simp [dot]

lemma dot_smul_left (c : ℚ) (u v : Pt) : dot (c • u) v = c * dot u v := by
  simp only [dot, Prod.smul_fst, Prod.smul_snd, smul_eq_mul]
  ring

lemma exists_smul_of_cross_eq_zero {u r : Pt} (hr : r ≠ 0) (h : cross u r = 0) :
    ∃ α : ℚ, u = α • r := by
  have hr' : ¬(r.1 = 0 ∧ r.2 = 0) := fun hh => hr (Prod.ext_iff.mpr hh)
  have hcr : u.1 * r.2 - u.2 * r.1 = 0 := h
  by_cases h1 : r.1 = 0
  · have h2 : r.2 ≠ 0 := fun hh => hr' ⟨h1, hh⟩
    have hu1 : u.1 = 0 := by
      have h3 : u.1 * r.2 = 0 := by rw [h1] at hcr; linarith
      exact (mul_eq_zero.mp h3).resolve_right h2
    refine ⟨u.2 / r.2, Prod.ext_iff.mpr ⟨?_, ?_⟩⟩
    · simp only [Prod.smul_fst, smul_eq_mul]
      rw [h1, mul_zero, hu1]
    · simp only [Prod.smul_snd, smul_eq_mul]
      field_simp
  · refine ⟨u.1 / r.1, Prod.ext_iff.mpr ⟨?_, ?_⟩⟩
    · simp only [Prod.smul_fst, smul_eq_mul]
      field_simp
    · simp only [Prod.smul_snd, smul_eq_mul]
      field_simp
      linarith

lemma crossing_point_eq (p r q s : Pt) (h : cross r s ≠ 0) :
    p + (cross (q - p) s / cross r s) • r = q + (cross (q - p) r / cross r s) • s := by
  have hc : r.1 * s.2 - r.2 * s.1 ≠ 0 := h
  refine Prod.ext_iff.mpr ⟨?_, ?_⟩ <;>
  · simp only [cross, Prod.fst_add, Prod.snd_add, Prod.smul_fst, Prod.smul_snd,
      Prod.fst_sub, Prod.snd_sub, smul_eq_mul]
    field_simp
    ring

lemma gsi_of_cross_ne (e1 e2 : Pt × Pt)
    (h : cross (e1.2 - e1.1) (e2.2 - e2.1) ≠ 0) :
    get_segments_intersection e1 e2 =
      (if (0 ≤ tParam e1 e2 ∧ tParam e1 e2 ≤ 1) ∧ (0 ≤ uParam e1 e2 ∧ uParam e1 e2 ≤ 1)
        then some (e1.1 + tParam e1 e2 • (e1.2 - e1.1)) else none,
       ⟨false, false⟩) := by
  unfold get_segments_intersection tParam uParam
  rw [if_neg (fun hh => h hh.1), if_neg (fun hh => h hh.1)]
  by_cases hc : (0 ≤ cross (e2.1 - e1.1) (e2.2 - e2.1) / cross (e1.2 - e1.1) (e2.2 - e2.1) ∧
        cross (e2.1 - e1.1) (e2.2 - e2.1) / cross (e1.2 - e1.1) (e2.2 - e2.1) ≤ 1) ∧
      (0 ≤ cross (e2.1 - e1.1) (e1.2 - e1.1) / cross (e1.2 - e1.1) (e2.2 - e2.1) ∧
        cross (e2.1 - e1.1) (e1.2 - e1.1) / cross (e1.2 - e1.1) (e2.2 - e2.1) ≤ 1)
  · rw [if_pos ⟨h, hc⟩, if_pos hc]
  · rw [if_neg (fun hh => hc hh.2), if_neg hc]

/-- C4: in the crossing case (`cross(r,s) ≠ 0`) the function returns
`a0 + t*r` exactly when both parameters `t, u` lie in `[0,1]` and no
intersection otherwise, the returned point satisfies both parametric
equations exactly, and scenario 1 intersects at `(5, 0)`. -/
theorem C4_crossing_case (e1 e2 : Pt × Pt)
    (h : cross (e1.2 - e1.1) (e2.2 - e2.1) ≠ 0) :
    ((get_segments_intersection e1 e2).1 =
        if (0 ≤ tParam e1 e2 ∧ tParam e1 e2 ≤ 1) ∧ (0 ≤ uParam e1 e2 ∧ uParam e1 e2 ≤ 1)
        then some (e1.1 + tParam e1 e2 • (e1.2 - e1.1)) else none) ∧
      e1.1 + tParam e1 e2 • (e1.2 - e1.1) = e2.1 + uParam e1 e2 • (e2.2 - e2.1) ∧
      (get_segments_intersection (((0:ℚ),(0:ℚ)),((10:ℚ),(0:ℚ)))
          (((5:ℚ),(-5:ℚ)),((5:ℚ),(5:ℚ)))).1 = some ((5:ℚ),(0:ℚ)) := by
  refine ⟨?_, ?_, by with_unfolding_all decide⟩
  · rw [congrArg Prod.fst (gsi_of_cross_ne e1 e2 h)]
  · exact crossing_point_eq e1.1 (e1.2 - e1.1) e2.1 (e2.2 - e2.1) h

/-- C4 witness: the theorem applied to scenario 1, whose segments satisfy
`cross(r,s) = 100 ≠ 0`; the parameters evaluate to `t = u = 1/2` and the
returned point is `(5, 0)`. -/
theorem C4_crossing_case_witness :
    cross ((((10:ℚ),(0:ℚ)) : Pt) - ((0:ℚ),(0:ℚ))) ((((5:ℚ),(5:ℚ)) : Pt) - ((5:ℚ),(-5:ℚ))) ≠ 0 ∧
    (get_segments_intersection (((0:ℚ),(0:ℚ)),((10:ℚ),(0:ℚ)))
        (((5:ℚ),(-5:ℚ)),((5:ℚ),(5:ℚ)))).1 = some ((5:ℚ),(0:ℚ)) := by
  have hne : cross ((((10:ℚ),(0:ℚ)) : Pt) - ((0:ℚ),(0:ℚ)))
      ((((5:ℚ),(5:ℚ)) : Pt) - ((5:ℚ),(-5:ℚ))) ≠ 0 := by
    with_unfolding_all decide
  exact ⟨hne,
    (C4_crossing_case (((0:ℚ),(0:ℚ)),((10:ℚ),(0:ℚ))) (((5:ℚ),(-5:ℚ)),((5:ℚ),(5:ℚ))) hne).2.2⟩

/-- C1: refuted as stated.  A degenerate first segment (both endpoints
`(0,5)`) is not detected: the collinearity test is vacuously passed, the
projection ratios divide by `dot r r = 0` (nan in numpy), and the function
returns the point `(0,0)` instead of no intersection. -/
theorem C1_degenerate_not_detected :
    (get_segments_intersection (((0:ℚ),(5:ℚ)),((0:ℚ),(5:ℚ)))
        (((0:ℚ),(0:ℚ)),((10:ℚ),(0:ℚ)))).1 = some ((0:ℚ),(0:ℚ)) ∧
    dot ((((0:ℚ),(5:ℚ)) : Pt) - ((0:ℚ),(5:ℚ))) ((((0:ℚ),(5:ℚ)) : Pt) - ((0:ℚ),(5:ℚ))) = 0 := by
  with_unfolding_all decide

/-- C3: refuted as stated.  The comparisons on lines 50, 75 and 82 are exact
`== 0` tests: a segment pair whose cross product is `10^-9` (well inside any
absolute tolerance such as `10^-6`) is classified as neither parallel nor
collinear and is sent to the division branch. -/
theorem C3_exact_zero_comparison :
    cross ((((1:ℚ),(0:ℚ)) : Pt) - ((0:ℚ),(0:ℚ)))
        ((((1:ℚ),(1+1/1000000000:ℚ)) : Pt) - ((0:ℚ),(1:ℚ))) ≠ 0 ∧
    |cross ((((1:ℚ),(0:ℚ)) : Pt) - ((0:ℚ),(0:ℚ)))
        ((((1:ℚ),(1+1/1000000000:ℚ)) : Pt) - ((0:ℚ),(1:ℚ)))| < 1/1000000 ∧
    get_segments_intersection (((0:ℚ),(0:ℚ)),((1:ℚ),(0:ℚ)))
        (((0:ℚ),(1:ℚ)),((1:ℚ),(1+1/1000000000:ℚ))) = (none, ⟨false, false⟩) := by
  with_unfolding_all decide

/-- C2: refuted as stated.  `stitch_path` threads the mutable pattern
accumulator: every computed stitch is appended to the `pattern` argument via
`pattern.add_stitch_absolute` (lines 496-499), so the pattern leaves the call
extended by the per-path stitches rather than unmodified. -/
theorem C2_pattern_mutated :
    stitch_path [((99:ℚ),(99:ℚ))] [[0,10]] [[0,0]] 0 1 1 =
      some (((99:ℚ),(99:ℚ)) :: [((0:ℚ),(0:ℚ)),(1,0),(2,0),(3,0),(4,0),(5,0),
          (6,0),(7,0),(8,0),(9,0),(10,0)],
        [(0:ℚ),1,2,3,4,5,6,7,8,9,10], [(0:ℚ),0,0,0,0,0,0,0,0,0,0]) ∧
    (stitch_path [((99:ℚ),(99:ℚ))] [[0,10]] [[0,0]] 0 1 1).map Prod.fst ≠
      some [((99:ℚ),(99:ℚ))] := by
  with_unfolding_all decide

lemma dot_smul_right (c : ℚ) (u v : Pt) : dot u (c • v) = c * dot u v := by
  simp only [dot, Prod.smul_fst, Prod.smul_snd, smul_eq_mul]
  ring

lemma mem_nanRatioCandidate {pt : Pt} {num den : ℚ} {base dir : Pt}
    (h : pt ∈ nanRatioCandidate num den base dir) :
    den ≠ 0 ∧ 0 ≤ num / den ∧ num / den ≤ 1 ∧ pt = base + (num / den) • dir := by
  by_cases hc : den ≠ 0 ∧ 0 ≤ num / den ∧ num / den ≤ 1
  · unfold nanRatioCandidate at h
    rw [if_pos hc, List.mem_singleton] at h
    exact ⟨hc.1, hc.2.1, hc.2.2, h⟩
  · unfold nanRatioCandidate at h
    rw [if_neg hc] at h
    exact absurd h (List.not_mem_nil pt)

lemma nanRatioCandidate_eq (num den : ℚ) (base dir : Pt)
    (hc : den ≠ 0 ∧ 0 ≤ num / den ∧ num / den ≤ 1) :
    nanRatioCandidate num den base dir = [base + (num / den) • dir] := by
  unfold nanRatioCandidate
  rw [if_pos hc]

/-- Every candidate kept by the collinear branch lies on both segments: in
exact arithmetic the kept projections are exactly the endpoints of one
segment that lie within the extent of the other one. -/
lemma candidates_onSeg (p r q s : Pt) (hr : r ≠ 0) (hs : s ≠ 0)
    (hcross : cross r s = 0) (hcol : cross (q - p) r = 0) :
    ∀ pt ∈ collinearCandidates p r q s,
      (∃ t : ℚ, 0 ≤ t ∧ t ≤ 1 ∧ pt = p + t • r) ∧
      (∃ t : ℚ, 0 ≤ t ∧ t ≤ 1 ∧ pt = q + t • s) := by
  obtain ⟨α, hα⟩ := exists_smul_of_cross_eq_zero hr hcol
  have hsr : cross s r = 0 := by
    simp only [cross] at hcross ⊢
    linarith
  obtain ⟨β, hβ⟩ := exists_smul_of_cross_eq_zero hr hsr
  have hβ0 : β ≠ 0 := fun hh => hs (by rw [hβ, hh, zero_smul])
  have hrr : dot r r ≠ 0 := fun hh => hr ((dot_self_eq_zero_iff r).mp hh)
  have hq : q = p + α • r := by rw [← hα]; abel
  intro pt hpt
  simp only [collinearCandidates, List.mem_append] at hpt
  rcases hpt with ((h1 | h2) | h3) | h4
  · obtain ⟨hden, hr0, hr1, hpt⟩ := mem_nanRatioCandidate h1
    have hratio : dot (q - p) r / dot r r = α := by
      rw [hα, dot_smul_left, mul_div_assoc, div_self hrr, mul_one]
    rw [hratio] at hr0 hr1 hpt
    refine ⟨⟨α, hr0, hr1, hpt⟩, ⟨0, le_refl 0, zero_le_one, ?_⟩⟩
    rw [hpt, ← hq, zero_smul, add_zero]
  · obtain ⟨hden, hr0, hr1, hpt⟩ := mem_nanRatioCandidate h2
    have hqs : q + s - p = (α + β) • r := by rw [add_smul, ← hα, ← hβ]; abel
    have hratio : dot (q + s - p) r / dot r r = α + β := by
      rw [hqs, dot_smul_left, mul_div_assoc, div_self hrr, mul_one]
    rw [hratio] at hr0 hr1 hpt
    refine ⟨⟨α + β, hr0, hr1, hpt⟩, ⟨1, zero_le_one, le_refl 1, ?_⟩⟩
    rw [hpt, one_smul]
    rw [← hqs]
    abel
  · obtain ⟨hden, hr0, hr1, hpt⟩ := mem_nanRatioCandidate h3
    have hpq : p - q = (-α) • r := by rw [neg_smul, ← hα]; abel
    have hnum : dot (p - q) s = -α * (β * dot r r) := by
      rw [hpq, hβ, dot_smul_left, dot_smul_right]
    have hden2 : dot s s = β * (β * dot r r) := by
      rw [hβ, dot_smul_left, dot_smul_right]
    have hratio : dot (p - q) s / dot s s = -α / β := by
      rw [hnum, hden2, mul_comm β (β * dot r r), mul_comm (-α) (β * dot r r)]
      rw [mul_div_mul_left _ _ (mul_ne_zero hβ0 hrr)]
    rw [hratio] at hr0 hr1 hpt
    have hptp : pt = p := by
      rw [hpt, hβ, smul_smul, div_mul_cancel₀ _ hβ0, neg_smul, hq]
      abel
    refine ⟨⟨0, le_refl 0, zero_le_one, by rw [hptp, zero_smul, add_zero]⟩,
      ⟨-α / β, hr0, hr1, hpt⟩⟩
  · obtain ⟨hden, hr0, hr1, hpt⟩ := mem_nanRatioCandidate h4
    have hprq : p + r - q = (1 - α) • r := by rw [sub_smul, one_smul, ← hα]; abel
    have hnum : dot (p + r - q) s = (1 - α) * (β * dot r r) := by
      rw [hprq, hβ, dot_smul_left, dot_smul_right]
    have hden2 : dot s s = β * (β * dot r r) := by
      rw [hβ, dot_smul_left, dot_smul_right]
    have hratio : dot (p + r - q) s / dot s s = (1 - α) / β := by
      rw [hnum, hden2, mul_comm β (β * dot r r), mul_comm (1 - α) (β * dot r r)]
      rw [mul_div_mul_left _ _ (mul_ne_zero hβ0 hrr)]
    rw [hratio] at hr0 hr1 hpt
    have hptp : pt = p + r := by
      rw [hpt, hβ, smul_smul, div_mul_cancel₀ _ hβ0, hq, sub_smul, one_smul]
      abel
    refine ⟨⟨1, zero_le_one, le_refl 1, by rw [hptp, one_smul]⟩,
      ⟨(1 - α) / β, hr0, hr1, hpt⟩⟩

/-- The sum of a list of points on the segment `a + [0,1] • d` is
`n • a + T • d` with `0 ≤ T ≤ n`. -/
lemma sum_onSeg (a d : Pt) : ∀ l : List Pt,
    (∀ pt ∈ l, ∃ t : ℚ, 0 ≤ t ∧ t ≤ 1 ∧ pt = a + t • d) →
    ∃ T : ℚ, 0 ≤ T ∧ T ≤ l.length ∧ l.sum = (l.length : ℚ) • a + T • d
  | [], _ => ⟨0, le_refl 0, by simp, by simp⟩
  | x :: xs, h => by
    obtain ⟨t, ht0, ht1, htx⟩ := h x (List.mem_cons_self x xs)
    obtain ⟨T, hT0, hTn, hTs⟩ :=
      sum_onSeg a d xs (fun pt hpt => h pt (List.mem_cons_of_mem x hpt))
    refine ⟨t + T, by positivity, ?_, ?_⟩
    · simp only [List.length_cons]
      push_cast
      linarith
    · rw [List.sum_cons, hTs, htx]
      simp only [List.length_cons]
      push_cast
      rw [add_smul, add_smul, one_smul]
      abel

/-- The componentwise mean of a nonempty list of points of a segment lies on
the segment. -/
lemma meanPts_onSeg (a b : Pt) (l : List Pt) (hne : l ≠ [])
    (h : ∀ pt ∈ l, onSeg a b pt) : onSeg a b (meanPts l) := by
  obtain ⟨T, hT0, hTn, hTs⟩ := sum_onSeg a (b - a) l h
  have hn0 : (0 : ℚ) < (l.length : ℚ) := by
    have := List.length_pos.mpr hne
    exact_mod_cast this
  refine ⟨T / (l.length : ℚ), div_nonneg hT0 (le_of_lt hn0),
    (div_le_one hn0).mpr hTn, ?_⟩
  unfold meanPts
  rw [hTs, smul_add, smul_smul, smul_smul, inv_mul_cancel₀ (ne_of_gt hn0), one_smul,
    div_eq_inv_mul]

/-- The componentwise mean of a nonempty constant list is the constant. -/
lemma meanPts_const (c : Pt) (l : List Pt) (hne : l ≠ [])
    (h : ∀ x ∈ l, x = c) : meanPts l = c := by
  have hsum : l.sum = l.length • c := List.sum_eq_card_nsmul l c h
  unfold meanPts
  rw [hsum, ← Nat.cast_smul_eq_nsmul ℚ, smul_smul,
    inv_mul_cancel₀, one_smul]
  have hn0 : (0 : ℚ) < (l.length : ℚ) := by
    have := List.length_pos.mpr hne
    exact_mod_cast this
  exact ne_of_gt hn0

lemma gsi_collinear (e1 e2 : Pt × Pt)
    (hcross : cross (e1.2 - e1.1) (e2.2 - e2.1) = 0)
    (hcol : cross (e2.1 - e1.1) (e1.2 - e1.1) = 0) :
    get_segments_intersection e1 e2 =
      (if collinearCandidates e1.1 (e1.2 - e1.1) e2.1 (e2.2 - e2.1) = [] then none
       else some (meanPts (collinearCandidates e1.1 (e1.2 - e1.1) e2.1 (e2.2 - e2.1))),
       ⟨true, false⟩) := by
  unfold get_segments_intersection
  rw [if_pos ⟨hcross, hcol⟩]

/-- C5: for non-degenerate collinear segments the function keeps the endpoint
projections whose parameter lies in `[0,1]`, returns no intersection when
none qualify, and otherwise returns the mean of the qualifying points, a
point lying on both segments (hence inside the overlap region and inside any
box bounding it); scenario 3 yields a point with `x` in `[5,10]`. -/
theorem C5_collinear_overlap (e1 e2 : Pt × Pt)
    (hr : e1.2 - e1.1 ≠ 0) (hs : e2.2 - e2.1 ≠ 0)
    (hcross : cross (e1.2 - e1.1) (e2.2 - e2.1) = 0)
    (hcol : cross (e2.1 - e1.1) (e1.2 - e1.1) = 0) :
    ((get_segments_intersection e1 e2).1 =
        if collinearCandidates e1.1 (e1.2 - e1.1) e2.1 (e2.2 - e2.1) = [] then none
        else some (meanPts (collinearCandidates e1.1 (e1.2 - e1.1) e2.1 (e2.2 - e2.1)))) ∧
      (∀ pt, (get_segments_intersection e1 e2).1 = some pt →
        onSeg e1.1 e1.2 pt ∧ onSeg e2.1 e2.2 pt) ∧
      (∃ pt, (get_segments_intersection (((0:ℚ),(0:ℚ)),((10:ℚ),(0:ℚ)))
          (((5:ℚ),(0:ℚ)),((15:ℚ),(0:ℚ)))).1 = some pt ∧
        5 ≤ pt.1 ∧ pt.1 ≤ 10 ∧ pt.2 = 0) := by
  have hfst := congrArg Prod.fst (gsi_collinear e1 e2 hcross hcol)
  refine ⟨hfst, ?_, ⟨((15:ℚ)/2, (0:ℚ)), by with_unfolding_all decide, by norm_num,
    by norm_num, rfl⟩⟩
  intro pt hpt
  rw [hfst] at hpt
  by_cases hnil : collinearCandidates e1.1 (e1.2 - e1.1) e2.1 (e2.2 - e2.1) = []
  · rw [if_pos hnil] at hpt
    exact absurd hpt (by simp)
  · rw [if_neg hnil] at hpt
    have hmean := Option.some_injective _ hpt
    have hall := candidates_onSeg e1.1 (e1.2 - e1.1) e2.1 (e2.2 - e2.1) hr hs hcross hcol
    have honA : ∀ x ∈ collinearCandidates e1.1 (e1.2 - e1.1) e2.1 (e2.2 - e2.1),
        onSeg e1.1 e1.2 x := fun x hx => (hall x hx).1
    have honB : ∀ x ∈ collinearCandidates e1.1 (e1.2 - e1.1) e2.1 (e2.2 - e2.1),
        onSeg e2.1 e2.2 x := fun x hx => (hall x hx).2
    rw [← hmean]
    exact ⟨meanPts_onSeg e1.1 e1.2 _ hnil honA, meanPts_onSeg e2.1 e2.2 _ hnil honB⟩

/-- C5 witness: scenario 3, collinear overlapping segments
`(0,0)-(10,0)` and `(5,0)-(15,0)`; the returned point is `(15/2, 0)`. -/
theorem C5_collinear_overlap_witness :
    cross ((((10:ℚ),(0:ℚ)) : Pt) - ((0:ℚ),(0:ℚ))) ((((15:ℚ),(0:ℚ)) : Pt) - ((5:ℚ),(0:ℚ))) = 0 ∧
    (∃ pt, (get_segments_intersection (((0:ℚ),(0:ℚ)),((10:ℚ),(0:ℚ)))
        (((5:ℚ),(0:ℚ)),((15:ℚ),(0:ℚ)))).1 = some pt ∧
      5 ≤ pt.1 ∧ pt.1 ≤ 10 ∧ pt.2 = 0) := by
  refine ⟨by with_unfolding_all decide, ?_⟩
  exact (C5_collinear_overlap (((0:ℚ),(0:ℚ)),((10:ℚ),(0:ℚ))) (((5:ℚ),(0:ℚ)),((15:ℚ),(0:ℚ)))
    (by with_unfolding_all decide) (by with_unfolding_all decide)
    (by with_unfolding_all decide) (by with_unfolding_all decide)).2.2

lemma ratio_of_smul (t : ℚ) (r : Pt) (hrr : dot r r ≠ 0) :
    dot (t • r) r / dot r r = t := by
  rw [dot_smul_left, mul_div_assoc, div_self hrr, mul_one]

/-- C10: for non-degenerate collinear segments that share exactly one point,
that point being an endpoint of one of the segments, the function returns
exactly the shared point: all kept projections coincide with it, so their
mean equals it. -/
theorem C10_collinear_touch (e1 e2 : Pt × Pt) (c : Pt)
    (hr : e1.2 - e1.1 ≠ 0) (hs : e2.2 - e2.1 ≠ 0)
    (hcross : cross (e1.2 - e1.1) (e2.2 - e2.1) = 0)
    (hcol : cross (e2.1 - e1.1) (e1.2 - e1.1) = 0)
    (hend : c = e1.1 ∨ c = e1.2 ∨ c = e2.1 ∨ c = e2.2)
    (huniq : ∀ pt : Pt, (onSeg e1.1 e1.2 pt ∧ onSeg e2.1 e2.2 pt) ↔ pt = c) :
    (get_segments_intersection e1 e2).1 = some c := by
  have hrr : dot (e1.2 - e1.1) (e1.2 - e1.1) ≠ 0 :=
    fun hh => hr ((dot_self_eq_zero_iff _).mp hh)
  have hss : dot (e2.2 - e2.1) (e2.2 - e2.1) ≠ 0 :=
    fun hh => hs ((dot_self_eq_zero_iff _).mp hh)
  have hall := candidates_onSeg e1.1 (e1.2 - e1.1) e2.1 (e2.2 - e2.1) hr hs hcross hcol
  have hconst : ∀ x ∈ collinearCandidates e1.1 (e1.2 - e1.1) e2.1 (e2.2 - e2.1), x = c :=
    fun x hx => (huniq x).mp ⟨(hall x hx).1, (hall x hx).2⟩
  have hcon : onSeg e1.1 e1.2 c ∧ onSeg e2.1 e2.2 c := (huniq c).mpr rfl
  have hne : collinearCandidates e1.1 (e1.2 - e1.1) e2.1 (e2.2 - e2.1) ≠ [] := by
    rcases hend with hc1 | hc2 | hc3 | hc4
    · -- c is the start of the first segment: the third projection fires.
      obtain ⟨u, hu0, hu1, hcu⟩ := hcon.2
      have hus : u • (e2.2 - e2.1) = c - e2.1 := by rw [hcu]; abel
      have hpq : e1.1 - e2.1 = u • (e2.2 - e2.1) := by rw [hus, ← hc1]
      have hratio : dot (e1.1 - e2.1) (e2.2 - e2.1) /
          dot (e2.2 - e2.1) (e2.2 - e2.1) = u := by
        rw [hpq, ratio_of_smul u _ hss]
      intro hnil
      unfold collinearCandidates at hnil
      rw [nanRatioCandidate_eq (dot (e1.1 - e2.1) (e2.2 - e2.1))
        (dot (e2.2 - e2.1) (e2.2 - e2.1)) e2.1 (e2.2 - e2.1)
        ⟨hss, by rw [hratio]; exact hu0, by rw [hratio]; exact hu1⟩] at hnil
      simp at hnil
    · -- c is the end of the first segment: the fourth projection fires.
      obtain ⟨u, hu0, hu1, hcu⟩ := hcon.2
      have hus : u • (e2.2 - e2.1) = c - e2.1 := by rw [hcu]; abel
      have hpq : e1.1 + (e1.2 - e1.1) - e2.1 = u • (e2.2 - e2.1) := by
        rw [hus, ← hc2]
        abel
      have hratio : dot (e1.1 + (e1.2 - e1.1) - e2.1) (e2.2 - e2.1) /
          dot (e2.2 - e2.1) (e2.2 - e2.1) = u := by
        rw [hpq, ratio_of_smul u _ hss]
      intro hnil
      unfold collinearCandidates at hnil
      rw [nanRatioCandidate_eq (dot (e1.1 + (e1.2 - e1.1) - e2.1) (e2.2 - e2.1))
        (dot (e2.2 - e2.1) (e2.2 - e2.1)) e2.1 (e2.2 - e2.1)
        ⟨hss, by rw [hratio]; exact hu0, by rw [hratio]; exact hu1⟩] at hnil
      simp at hnil
    · -- c is the start of the second segment: the first projection fires.
      obtain ⟨t, ht0, ht1, hct⟩ := hcon.1
      have hts : t • (e1.2 - e1.1) = c - e1.1 := by rw [hct]; abel
      have hqp : e2.1 - e1.1 = t • (e1.2 - e1.1) := by rw [hts, ← hc3]
      have hratio : dot (e2.1 - e1.1) (e1.2 - e1.1) /
          dot (e1.2 - e1.1) (e1.2 - e1.1) = t := by
        rw [hqp, ratio_of_smul t _ hrr]
      intro hnil
      unfold collinearCandidates at hnil
      rw [nanRatioCandidate_eq (dot (e2.1 - e1.1) (e1.2 - e1.1))
        (dot (e1.2 - e1.1) (e1.2 - e1.1)) e1.1 (e1.2 - e1.1)
        ⟨hrr, by rw [hratio]; exact ht0, by rw [hratio]; exact ht1⟩] at hnil
      simp at hnil
    · -- c is the end of the second segment: the second projection fires.
      obtain ⟨t, ht0, ht1, hct⟩ := hcon.1
      have hts : t • (e1.2 - e1.1) = c - e1.1 := by rw [hct]; abel
      have hqp : e2.1 + (e2.2 - e2.1) - e1.1 = t • (e1.2 - e1.1) := by
        rw [hts, ← hc4]
        abel
      have hratio : dot (e2.1 + (e2.2 - e2.1) - e1.1) (e1.2 - e1.1) /
          dot (e1.2 - e1.1) (e1.2 - e1.1) = t := by
        rw [hqp, ratio_of_smul t _ hrr]
      intro hnil
      unfold collinearCandidates at hnil
      rw [nanRatioCandidate_eq (dot (e2.1 + (e2.2 - e2.1) - e1.1) (e1.2 - e1.1))
        (dot (e1.2 - e1.1) (e1.2 - e1.1)) e1.1 (e1.2 - e1.1)
        ⟨hrr, by rw [hratio]; exact ht0, by rw [hratio]; exact ht1⟩] at hnil
      simp at hnil
  rw [congrArg Prod.fst (gsi_collinear e1 e2 hcross hcol)]
  simp only [if_neg hne]
  rw [meanPts_const c _ hne hconst]

/-- C10 witness: the collinear segments `(0,0)-(10,0)` and `(10,0)-(20,0)`
touch exactly at the endpoint `(10,0)`, and the function returns it. -/
theorem C10_collinear_touch_witness :
    (get_segments_intersection (((0:ℚ),(0:ℚ)),((10:ℚ),(0:ℚ)))
        (((10:ℚ),(0:ℚ)),((20:ℚ),(0:ℚ)))).1 = some ((10:ℚ),(0:ℚ)) := by
  refine C10_collinear_touch (((0:ℚ),(0:ℚ)),((10:ℚ),(0:ℚ)))
    (((10:ℚ),(0:ℚ)),((20:ℚ),(0:ℚ))) ((10:ℚ),(0:ℚ))
    (by with_unfolding_all decide) (by with_unfolding_all decide)
    (by with_unfolding_all decide) (by with_unfolding_all decide)
    (Or.inr (Or.inr (Or.inl rfl))) ?_
  intro pt
  constructor
  · rintro ⟨⟨t, ht0, ht1, hpt⟩, ⟨u, hu0, hu1, hpu⟩⟩
    have h1 := congrArg Prod.fst hpt
    have h2 := congrArg Prod.snd hpt
    have h3 := congrArg Prod.fst hpu
    simp only [Prod.fst_add, Prod.snd_add, Prod.smul_fst, Prod.smul_snd,
      Prod.fst_sub, Prod.snd_sub, smul_eq_mul] at h1 h2 h3
    norm_num at h1 h2 h3
    refine Prod.ext_iff.mpr ⟨?_, ?_⟩
    · show pt.1 = 10
      linarith [h1, h3, ht1, hu0]
    · show pt.2 = 0
      exact h2
  · rintro rfl
    refine ⟨⟨1, by norm_num, by norm_num, by with_unfolding_all decide⟩,
      ⟨0, by norm_num, by norm_num, by with_unfolding_all decide⟩⟩

lemma isqrtAux_sq_le (n : ℕ) : ∀ k, isqrtAux n k * isqrtAux n k ≤ n := by
  intro k
  induction k with
  | zero => simp [isqrtAux]
  | succ k ih =>
    unfold isqrtAux
    split
    · next h => exact h
    · exact ih

lemma le_isqrtAux (n : ℕ) : ∀ k j, j ≤ k → j * j ≤ n → j ≤ isqrtAux n k := by
  intro k
  induction k with
  | zero =>
    intro j hj _
    simpa [isqrtAux] using hj
  | succ k ih =>
    intro j hj hjn
    unfold isqrtAux
    split
    · next _ => exact hj
    · next h =>
      rcases eq_or_lt_of_le hj with rfl | hlt
      · exact absurd hjn h
      · exact ih j (Nat.lt_succ_iff.mp hlt) hjn

lemma isqrt_sq_le (n : ℕ) : isqrt n * isqrt n ≤ n := isqrtAux_sq_le n n

lemma lt_succ_isqrt (n : ℕ) : n < (isqrt n + 1) * (isqrt n + 1) := by
  by_contra hcon
  push_neg at hcon
  have h1 : isqrt n + 1 ≤ n :=
    le_trans (Nat.le_mul_of_pos_left _ (Nat.succ_pos (isqrt n))) hcon
  have h2 : isqrt n + 1 ≤ isqrt n := le_isqrtAux n n (isqrt n + 1) h1 hcon
  omega

/-- For a positive pitch, `floorDistDiv dd pitch` is the (nonnegative) floor
of `sqrt dd / pitch`, characterized by the two squared inequalities. -/
lemma floorDistDiv_pos_spec (dd pitch : ℚ) (hdd : 0 ≤ dd) (hp : 0 < pitch) :
    floorDistDiv dd pitch = (isqrt (⌊dd / pitch ^ 2⌋.toNat) : ℤ) ∧
      ((isqrt (⌊dd / pitch ^ 2⌋.toNat) : ℚ) * pitch) ^ 2 ≤ dd ∧
      dd < (((isqrt (⌊dd / pitch ^ 2⌋.toNat) : ℚ) + 1) * pitch) ^ 2 := by
  have hp2 : (0:ℚ) < pitch ^ 2 := by positivity
  have hy0 : 0 ≤ dd / pitch ^ 2 := div_nonneg hdd (le_of_lt hp2)
  have hfl0 : (0:ℤ) ≤ ⌊dd / pitch ^ 2⌋ := Int.floor_nonneg.mpr hy0
  have hcast : ((⌊dd / pitch ^ 2⌋.toNat : ℚ)) = ((⌊dd / pitch ^ 2⌋ : ℤ) : ℚ) := by
    exact_mod_cast congrArg (fun z : ℤ => (z : ℚ)) (Int.toNat_of_nonneg hfl0)
  refine ⟨by unfold floorDistDiv; rw [if_pos hp], ?_, ?_⟩
  · have h1 : ((isqrt (⌊dd / pitch ^ 2⌋.toNat) : ℚ)) ^ 2 ≤ ((⌊dd / pitch ^ 2⌋.toNat : ℚ)) := by
      have h := isqrt_sq_le (⌊dd / pitch ^ 2⌋.toNat)
      rw [sq]
      exact_mod_cast h
    have h2 : ((⌊dd / pitch ^ 2⌋.toNat : ℚ)) ≤ dd / pitch ^ 2 := by
      rw [hcast]
      exact Int.floor_le _
    calc ((isqrt (⌊dd / pitch ^ 2⌋.toNat) : ℚ) * pitch) ^ 2
        = ((isqrt (⌊dd / pitch ^ 2⌋.toNat) : ℚ)) ^ 2 * pitch ^ 2 := by ring
      _ ≤ (dd / pitch ^ 2) * pitch ^ 2 :=
          mul_le_mul_of_nonneg_right (le_trans h1 h2) (le_of_lt hp2)
      _ = dd := div_mul_cancel₀ dd (ne_of_gt hp2)
  · have h3 : dd / pitch ^ 2 < ((⌊dd / pitch ^ 2⌋.toNat : ℚ)) + 1 := by
      rw [hcast]
      exact Int.lt_floor_add_one _
    have h4 : ((⌊dd / pitch ^ 2⌋.toNat : ℚ)) + 1 ≤
        ((isqrt (⌊dd / pitch ^ 2⌋.toNat) : ℚ) + 1) ^ 2 := by
      have h5 : ⌊dd / pitch ^ 2⌋.toNat + 1 ≤
          (isqrt (⌊dd / pitch ^ 2⌋.toNat) + 1) * (isqrt (⌊dd / pitch ^ 2⌋.toNat) + 1) :=
        Nat.succ_le_of_lt (lt_succ_isqrt _)
      have h6 : ((⌊dd / pitch ^ 2⌋.toNat : ℚ)) + 1 ≤
          ((isqrt (⌊dd / pitch ^ 2⌋.toNat) : ℚ) + 1) *
            ((isqrt (⌊dd / pitch ^ 2⌋.toNat) : ℚ) + 1) := by
        exact_mod_cast h5
      nlinarith [h6]
    calc dd = (dd / pitch ^ 2) * pitch ^ 2 := (div_mul_cancel₀ dd (ne_of_gt hp2)).symm
      _ < (((⌊dd / pitch ^ 2⌋.toNat : ℚ)) + 1) * pitch ^ 2 :=
          mul_lt_mul_of_pos_right h3 hp2
      _ ≤ ((isqrt (⌊dd / pitch ^ 2⌋.toNat) : ℚ) + 1) ^ 2 * pitch ^ 2 :=
          mul_le_mul_of_nonneg_right h4 (le_of_lt hp2)
      _ = (((isqrt (⌊dd / pitch ^ 2⌋.toNat) : ℚ) + 1) * pitch) ^ 2 := by ring

/-- For a positive pitch the astype value is nonnegative, so no int64 wrap
and no IndexError occur: the gap fill returns its stitch list. -/
lemma gapStitches_pos (a b : Pt) (pitch : ℚ) (minNum : ℤ) (hp : 0 < pitch) :
    gapStitches a b pitch minNum =
      some ((List.range (max minNum
          (floorDistDiv (dot (b - a) (b - a)) pitch - 1)).toNat).map
        (fun (j : ℕ) => a + (((j : ℚ) + 1) /
          (((max minNum (floorDistDiv (dot (b - a) (b - a)) pitch - 1) : ℤ) : ℚ) + 1)) •
          (b - a))) := by
  have hfd : (0:ℤ) ≤ floorDistDiv (dot (b - a) (b - a)) pitch := by
    unfold floorDistDiv
    rw [if_pos hp]
    exact Int.natCast_nonneg _
  have hne : ¬ floorDistDiv (dot (b - a) (b - a)) pitch = -(2 ^ 63) := by
    intro h
    rw [h] at hfd
    norm_num at hfd
  simp only [gapStitches]
  rw [if_neg hne, if_neg (fun hh => hne hh.1)]

/-- C6: each gap receives exactly `max(minStitchesPerGap, floor(d/pitch)-1)`
interior stitches (`fdp` below is `floor(d/pitch)`, pinned down by the two
squared inequalities) and no IndexError occurs at a positive pitch, the
stitches sitting at equally spaced ratios `(j+1)/(n+1)` strictly between 0
and 1 along the gap; scenario 4 yields stitches at `x = 0, 2.5, 5, 7.5, 10`. -/
theorem C6_gap_fill (a b : Pt) (pitch : ℚ) (minNum : ℤ) (hp : 0 < pitch) :
    (∃ fdp : ℕ,
      ((fdp : ℚ) * pitch) ^ 2 ≤ dot (b - a) (b - a) ∧
      dot (b - a) (b - a) < (((fdp : ℚ) + 1) * pitch) ^ 2 ∧
      ∃ l, gapStitches a b pitch minNum = some l ∧
        l.length = (max minNum ((fdp : ℤ) - 1)).toNat ∧
        (∀ j, ∀ hj : j < l.length,
          0 < ((j : ℚ) + 1) / (((max minNum ((fdp : ℤ) - 1) : ℤ) : ℚ) + 1) ∧
          ((j : ℚ) + 1) / (((max minNum ((fdp : ℤ) - 1) : ℤ) : ℚ) + 1) < 1 ∧
          l.get ⟨j, hj⟩ =
            a + (((j : ℚ) + 1) / (((max minNum ((fdp : ℤ) - 1) : ℤ) : ℚ) + 1)) • (b - a))) ∧
    stitch_path [] [[0,10]] [[0,0]] 0 (5/2) 1 =
      some ([((0:ℚ),(0:ℚ)),(5/2,0),(5,0),(15/2,0),(10,0)],
        [(0:ℚ),5/2,5,15/2,10], [(0:ℚ),0,0,0,0]) := by
  obtain ⟨heq, hlow, hhigh⟩ :=
    floorDistDiv_pos_spec (dot (b - a) (b - a)) pitch (dot_self_nonneg (b - a)) hp
  have hgs := gapStitches_pos a b pitch minNum hp
  rw [heq] at hgs
  refine ⟨⟨isqrt (⌊dot (b - a) (b - a) / pitch ^ 2⌋.toNat), hlow, hhigh, _, hgs, ?_, ?_⟩,
    by with_unfolding_all decide⟩
  · simp only [List.length_map, List.length_range]
  · intro j hj
    rw [List.length_map, List.length_range] at hj
    have hn1 : (0:ℤ) < max minNum ((isqrt (⌊dot (b - a) (b - a) / pitch ^ 2⌋.toNat) : ℤ) - 1) := by
      by_contra hle
      push_neg at hle
      rw [Int.toNat_of_nonpos hle] at hj
      exact Nat.not_lt_zero j hj
    have hjn : (j : ℤ) <
        max minNum ((isqrt (⌊dot (b - a) (b - a) / pitch ^ 2⌋.toNat) : ℤ) - 1) := by
      omega
    have hdenpos : (0:ℚ) <
        ((max minNum ((isqrt (⌊dot (b - a) (b - a) / pitch ^ 2⌋.toNat) : ℤ) - 1) : ℤ) : ℚ) + 1 := by
      have h9 : (0:ℚ) < ((max minNum ((isqrt (⌊dot (b - a) (b - a) / pitch ^ 2⌋.toNat) : ℤ) - 1) : ℤ) : ℚ) := by
        exact_mod_cast hn1
      linarith
    refine ⟨div_pos (by positivity) hdenpos, ?_, ?_⟩
    · rw [div_lt_one hdenpos]
      have h8 : ((j:ℚ)) < ((max minNum ((isqrt (⌊dot (b - a) (b - a) / pitch ^ 2⌋.toNat) : ℤ) - 1) : ℤ) : ℚ) := by
        exact_mod_cast hjn
      linarith
    · simp only [List.get_eq_getElem, List.getElem_map, List.getElem_range]

/-- C6 witness: scenario 4 via the theorem at the single gap of the path
`[(0,0),(10,0)]` with `pitch = 5/2` and one minimum stitch per gap. -/
theorem C6_gap_fill_witness :
    (0:ℚ) < 5/2 ∧
    stitch_path [] [[0,10]] [[0,0]] 0 (5/2) 1 =
      some ([((0:ℚ),(0:ℚ)),(5/2,0),(5,0),(15/2,0),(10,0)],
        [(0:ℚ),5/2,5,15/2,10], [(0:ℚ),0,0,0,0]) :=
  ⟨by norm_num, (C6_gap_fill ((0:ℚ),(0:ℚ)) ((10:ℚ),(0:ℚ)) (5/2) 1 (by norm_num)).2⟩

lemma stitch_path_eq (pattern : List Pt) (x_all y_all : List (List ℚ)) (path_index : ℕ)
    (pitch : ℚ) (minNum : ℤ) :
    stitch_path pattern x_all y_all path_index pitch minNum =
      (stitchCore (stitchOthers x_all y_all path_index) pitch minNum
        (pathPoints x_all y_all path_index)).map
        (fun st => (pattern ++ st, st.map Prod.fst, st.map Prod.snd)) := rfl

lemma stitchCore_cons_cons (others : List (List Pt)) (pitch : ℚ) (minNum : ℤ)
    (a b : Pt) (rest : List Pt) :
    stitchCore others pitch minNum (a :: b :: rest) =
      (stitchSegPts others pitch minNum a b).bind (fun seg =>
        (stitchCore others pitch minNum (b :: rest)).bind (fun tail =>
          some (seg ++ (if rest = [] then [b] else []) ++ tail))) := rfl

lemma stitchSegPts_some {others : List (List Pt)} {pitch : ℚ} {minNum : ℤ}
    {a b : Pt} {l : List Pt}
    (h : stitchSegPts others pitch minNum a b = some l) : ∃ tl, l = a :: tl := by
  unfold stitchSegPts at h
  rcases Option.map_eq_some'.mp h with ⟨gaps, _, hl⟩
  exact ⟨gaps.flatten, hl.symm⟩

lemma stitchCore_some {others : List (List Pt)} {pitch : ℚ} {minNum : ℤ}
    {a b : Pt} {rest l : List Pt}
    (h : stitchCore others pitch minNum (a :: b :: rest) = some l) :
    ∃ seg tail, stitchSegPts others pitch minNum a b = some seg ∧
      stitchCore others pitch minNum (b :: rest) = some tail ∧
      l = seg ++ (if rest = [] then [b] else []) ++ tail := by
  rw [stitchCore_cons_cons] at h
  rcases hseg : stitchSegPts others pitch minNum a b with _ | seg
  · rw [hseg] at h
    exact absurd h (by simp)
  · rw [hseg] at h
    rcases htail : stitchCore others pitch minNum (b :: rest) with _ | tail
    · rw [htail] at h
      exact absurd h (by simp)
    · rw [htail] at h
      simp only [Option.some_bind, Option.some.injEq] at h
      exact ⟨seg, tail, rfl, rfl, h.symm⟩

lemma stitchCore_head? {others : List (List Pt)} {pitch : ℚ} {minNum : ℤ}
    {a b : Pt} {rest l : List Pt}
    (h : stitchCore others pitch minNum (a :: b :: rest) = some l) :
    l.head? = some a := by
  obtain ⟨seg, tail, hseg, htail, hl⟩ := stitchCore_some h
  obtain ⟨tl, htl⟩ := stitchSegPts_some hseg
  rw [hl, htl, List.cons_append, List.cons_append, List.head?_cons]

lemma stitchCore_getLast? (others : List (List Pt)) (pitch : ℚ) (minNum : ℤ) :
    ∀ (rest : List Pt) (a b : Pt) (l : List Pt),
      stitchCore others pitch minNum (a :: b :: rest) = some l →
      l.getLast? = (a :: b :: rest).getLast? := by
  intro rest
  induction rest with
  | nil =>
    intro a b l h
    obtain ⟨seg, tail, hseg, htail, hl⟩ := stitchCore_some h
    have htail0 : tail = [] := by
      have hb : stitchCore others pitch minNum [b] = some [] := rfl
      exact (Option.some_injective _ (hb.symm.trans htail)).symm
    rw [hl, htail0, if_pos rfl, List.append_nil, List.getLast?_concat]
    simp
  | cons c rs ih =>
    intro a b l h
    obtain ⟨seg, tail, hseg, htail, hl⟩ := stitchCore_some h
    have htg := ih b c tail htail
    rw [hl, if_neg (List.cons_ne_nil c rs), List.append_nil, List.getLast?_append, htg,
      List.getLast?_cons_cons]
    cases hgl : (c :: rs).getLast? with
    | none =>
      exact absurd (List.getLast?_eq_none_iff.mp hgl) (List.cons_ne_nil c rs)
    | some x => simp [hgl]

/-- C7 (amended): whenever `stitch_path` returns at all, the first emitted
stitch is the first control point and the last emitted stitch is the last
control point, exactly.  (At pitch 0 the int64 wrap of the astype sentinel
makes `np.arange` empty and `stitch_path` raises IndexError, emitting
nothing, so the unrestricted every-pitch claim fails; see
`C7_pitch_zero_no_output`.) -/
theorem C7_endpoints_exact (pattern : List Pt) (x_all y_all : List (List ℚ))
    (path_index : ℕ) (pitch : ℚ) (minNum : ℤ) (p0 pLast : Pt)
    (h2 : 2 ≤ (pathPoints x_all y_all path_index).length)
    (h0 : (pathPoints x_all y_all path_index).head? = some p0)
    (hL : (pathPoints x_all y_all path_index).getLast? = some pLast) :
    ∀ pat xs ys, stitch_path pattern x_all y_all path_index pitch minNum = some (pat, xs, ys) →
      xs.head? = some p0.1 ∧ ys.head? = some p0.2 ∧
      xs.getLast? = some pLast.1 ∧ ys.getLast? = some pLast.2 := by
  intro pat xs ys h
  rw [stitch_path_eq] at h
  rcases Option.map_eq_some'.mp h with ⟨st, hst, htriple⟩
  have hx := congrArg (fun t : List Pt × List ℚ × List ℚ => t.2.1) htriple
  have hy := congrArg (fun t : List Pt × List ℚ × List ℚ => t.2.2) htriple
  simp only at hx hy
  cases hp1 : pathPoints x_all y_all path_index with
  | nil => rw [hp1] at h2; simp at h2
  | cons a tail =>
    cases tail with
    | nil => rw [hp1] at h2; simp at h2
    | cons b rest =>
      rw [hp1] at h0 hL hst
      have ha : a = p0 := by
        rw [List.head?_cons] at h0
        exact Option.some_injective _ h0
      have hhead := stitchCore_head? hst
      have hlast := stitchCore_getLast? (stitchOthers x_all y_all path_index)
        pitch minNum rest a b st hst
      rw [← hx, ← hy, List.head?_map, List.head?_map, List.getLast?_map, List.getLast?_map,
        hhead, hlast, hL, ha]
      exact ⟨rfl, rfl, rfl, rfl⟩

/-- C7 witness: the single path `[(0,0),(10,0)]` with pitch 2 returns the
stitches at `x = 0, 2, 4, 6, 8, 10`; the first stitch is `(0,0)` and the
last stitch is `(10,0)`, exactly the control points. -/
theorem C7_endpoints_exact_witness :
    [(0:ℚ),2,4,6,8,10].head? = some ((0:ℚ)) ∧
    [(0:ℚ),0,0,0,0,0].head? = some ((0:ℚ)) ∧
    [(0:ℚ),2,4,6,8,10].getLast? = some ((10:ℚ)) ∧
    [(0:ℚ),0,0,0,0,0].getLast? = some ((0:ℚ)) :=
  C7_endpoints_exact [] [[0,10]] [[0,0]] 0 2 1 ((0:ℚ),(0:ℚ)) ((10:ℚ),(0:ℚ))
    (by with_unfolding_all decide) (by with_unfolding_all decide)
    (by with_unfolding_all decide)
    [((0:ℚ),(0:ℚ)),(2,0),(4,0),(6,0),(8,0),(10,0)]
    [(0:ℚ),2,4,6,8,10] [(0:ℚ),0,0,0,0,0]
    (by with_unfolding_all decide)

/-- C7 counterexample: at pitch 0 the astype sentinel `-2^63` wraps under
the int64 `- 1` to `2^63 - 1`, `np.arange` comes out empty, and the stitch
loop raises IndexError: `stitch_path` returns nothing at all, so there is no
first (or last) emitted stitch, refuting the claim at every pitch. -/
theorem C7_pitch_zero_no_output :
    stitch_path [] [[0,10]] [[0,0]] 0 0 1 = none := by
  with_unfolding_all decide

lemma zip_map_fst_snd : ∀ l : List Pt, List.zip (l.map Prod.fst) (l.map Prod.snd) = l
  | [] => rfl
  | x :: xs => by simp [zip_map_fst_snd xs]

lemma stitchCore_sublist (others : List (List Pt)) (pitch : ℚ) (minNum : ℤ) :
    ∀ (rest : List Pt) (a b : Pt) (l : List Pt),
      stitchCore others pitch minNum (a :: b :: rest) = some l →
      (a :: b :: rest).Sublist l := by
  intro rest
  induction rest with
  | nil =>
    intro a b l h
    obtain ⟨seg, tail, hseg, htail, hl⟩ := stitchCore_some h
    obtain ⟨tl, htl⟩ := stitchSegPts_some hseg
    have htail0 : tail = [] := by
      have hb : stitchCore others pitch minNum [b] = some [] := rfl
      exact (Option.some_injective _ (hb.symm.trans htail)).symm
    rw [hl, htl, htail0, if_pos rfl, List.append_nil, List.cons_append]
    exact List.Sublist.cons₂ a (List.sublist_append_right tl [b])
  | cons c rs ih =>
    intro a b l h
    obtain ⟨seg, tail, hseg, htail, hl⟩ := stitchCore_some h
    obtain ⟨tl, htl⟩ := stitchSegPts_some hseg
    rw [hl, htl, if_neg (List.cons_ne_nil c rs), List.append_nil, List.cons_append]
    exact List.Sublist.cons₂ a ((ih b c tail htail).trans (List.sublist_append_right tl tail))

/-- C8: every control point of a path appears verbatim and in order among the
emitted stitches of that path: whenever `stitch_path` returns, the
control-point list is a sublist of the emitted stitch list. -/
theorem C8_control_points_subsequence (pattern : List Pt) (x_all y_all : List (List ℚ))
    (path_index : ℕ) (pitch : ℚ) (minNum : ℤ)
    (h2 : 2 ≤ (pathPoints x_all y_all path_index).length) :
    ∀ pat xs ys, stitch_path pattern x_all y_all path_index pitch minNum = some (pat, xs, ys) →
      (pathPoints x_all y_all path_index).Sublist (List.zip xs ys) := by
  intro pat xs ys h
  rw [stitch_path_eq] at h
  rcases Option.map_eq_some'.mp h with ⟨st, hst, htriple⟩
  have hx := congrArg (fun t : List Pt × List ℚ × List ℚ => t.2.1) htriple
  have hy := congrArg (fun t : List Pt × List ℚ × List ℚ => t.2.2) htriple
  simp only at hx hy
  rw [← hx, ← hy, zip_map_fst_snd]
  cases hp1 : pathPoints x_all y_all path_index with
  | nil => rw [hp1] at h2; simp at h2
  | cons a tail =>
    cases tail with
    | nil => rw [hp1] at h2; simp at h2
    | cons b rest =>
      rw [hp1] at hst
      exact stitchCore_sublist _ pitch minNum rest a b st hst

/-- C8 witness: the control points `(0,0), (10,0)` form a sublist of the
stitches emitted for the path `[(0,0),(10,0)]` with pitch 2. -/
theorem C8_control_points_subsequence_witness :
    2 ≤ (pathPoints [[0,10]] [[0,0]] 0).length ∧
    (pathPoints [[0,10]] [[0,0]] 0).Sublist
      (List.zip [(0:ℚ),2,4,6,8,10] [(0:ℚ),0,0,0,0,0]) :=
  ⟨by with_unfolding_all decide,
    C8_control_points_subsequence [] [[0,10]] [[0,0]] 0 2 1
      (by with_unfolding_all decide)
      [((0:ℚ),(0:ℚ)),(2,0),(4,0),(6,0),(8,0),(10,0)]
      [(0:ℚ),2,4,6,8,10] [(0:ℚ),0,0,0,0,0]
      (by with_unfolding_all decide)⟩

/-- C9: refuted as stated.  No validation is performed: a negative pitch is
accepted and produces a full stitch plan (the floor of `d/pitch` is negative,
so every gap falls back to `min_num_stitches_per_segment` stitches), and a
single-point path silently produces an empty stitch list; neither input is
rejected or reported. -/
theorem C9_no_validation :
    stitch_path [] [[0,10]] [[0,0]] 0 (-1) 1 =
      some ([((0:ℚ),(0:ℚ)),(5,0),(10,0)], [(0:ℚ),5,10], [(0:ℚ),0,0]) ∧
    stitch_path [] [[5]] [[5]] 0 1 1 = some ([], [], []) := by
  with_unfolding_all decide

end PyEmb
